import Mathlib

/-!
# Verification of `projanitor.py`

A shallow embedding of `projanitor.py` (a project-audit tool): root
discovery (`find_project_root`), the single-pass catalog / reference
builder (`analyze_project_files`), and the report classifier
(`generate_report`), together with theorems settling the specification
claims.

Modelling conventions:
* A filesystem path is its list of components below `/` (`Path := List String`);
  all paths in the model are canonical, so `Path.resolve()` on an existing
  directory is the identity, while resolving a possibly-nonexistent path
  joined from a string normalises `.` and `..` lexically (Python >= 3.6
  `resolve(strict=False)` never raises for a missing target).
* The filesystem is a finite rose tree (`FSTree`) rooted at `/`; directory
  listing order is the order of the `subdirs` / `files` lists, and symlink
  flags model `is_symlink()`.
* File contents are lists of lines (without the trailing newline, which no
  pattern of the program can capture).
* All file reads succeed and decode; the per-file exception handlers
  (decode/permission/not-found) and all printing are irrelevant to the data
  the claims speak about.
-/

set_option linter.unusedVariables false

namespace Projanitor

/-- A canonical absolute path: its components below the filesystem root. -/
abbrev Path := List String

/-- `Path.name`: the final component (`""` for the filesystem root). -/
def Path.name (p : Path) : String := (List.getLast? p).getD ""

/-- `Path.parent`: drop the final component; the parent of `/` is `/`. -/
def Path.parent (p : Path) : Path := List.dropLast p

/-- Python `PurePath.suffix` of a basename: the part from the last dot,
provided that dot is neither the first nor the last character
(`"foo.c" ↦ ".c"`, `".bashrc" ↦ ""`, `"foo." ↦ ""`, `"foo" ↦ ""`). -/
def pySuffix (name : String) : String :=
  let r := name.data.reverse
  match List.findIdx? (· = '.') r with
  | none => ""
  | some k =>
    if k = 0 then ""
    else if k = r.length - 1 then ""
    else String.mk ('.' :: (r.take k).reverse)

/-- A directory entry for a regular file (or a symlink to one). -/
structure FileEnt where
  name : String
  lines : List String
  symlink : Bool
deriving DecidableEq, Inhabited

/-- A directory: its name, symlink flag, subdirectories and files, in
listing order. The whole filesystem is one `FSTree` standing for `/`. -/
inductive FSTree where
  | node (dirname : String) (symlink : Bool)
      (subdirs : List FSTree) (files : List FileEnt)

instance : Inhabited FSTree := ⟨.node "" false [] []⟩

def FSTree.dirname : FSTree → String
  | .node d _ _ _ => d

def FSTree.symlink : FSTree → Bool
  | .node _ s _ _ => s

def FSTree.subdirs : FSTree → List FSTree
  | .node _ _ subs _ => subs

def FSTree.files : FSTree → List FileEnt
  | .node _ _ _ fs => fs

/-- Locate the directory node at a canonical path. -/
def lookupDir : FSTree → Path → Option FSTree
  | t, [] => some t
  | t, n :: rest =>
    match List.find? (fun c => FSTree.dirname c = n) t.subdirs with
    | some c => lookupDir c rest
    | none => none

/-- `Path.is_file()` for `dir ++ [base]`: a file entry named `base` exists in
`dir` (a symlink entry models a link to a file, so `is_file` holds). -/
def isFile (fs : FSTree) (p : Path) : Bool :=
  match lookupDir fs (Path.parent p) with
  | some t => t.files.any (fun f => f.name = Path.name p)
  | none => false

/-- The subdirectories listed by `iterdir` at `p` (directories only). -/
def childDirs (fs : FSTree) (p : Path) : List FSTree :=
  match lookupDir fs p with
  | some t => t.subdirs
  | none => []

/-- `MAX_SEARCH_DEPTH` from the source. -/
def MAX_SEARCH_DEPTH : Nat := 3

/-- Does directory `p` contain at least one marker file? -/
def hasMarker (fs : FSTree) (markers : List String) (p : Path) : Bool :=
  markers.any (fun m => isFile fs (p ++ [m]))

/-- The upward collection loop of `find_project_root`: starting from
`curr`, take the parent `n` times, appending each parent not yet seen to
the accumulated list (the code keeps `up_paths` and the `checked` set in
lock-step here, so one list serves as both). -/
def buildUp : Nat → Path → List Path → List Path
  | 0, _, ups => ups
  | n + 1, curr, ups =>
    let p := Path.parent curr
    if p ∈ ups then buildUp n p ups else buildUp n p (ups ++ [p])

/-- The ancestor chain checked by `find_project_root`: the start directory
followed by up to `MAX_SEARCH_DEPTH` parents, deduplicated. -/
def upChain (start : Path) : List Path :=
  buildUp MAX_SEARCH_DEPTH start [start]

/-- One folder of one BFS level: scan `iterdir` output in order, skipping
symlinks and already-checked directories; stop at the first new directory
holding a marker. Returns (found root?, checked, next_level). -/
def scanFolder (fs : FSTree) (markers : List String) (folder : Path) :
    List FSTree → List Path → List Path → Option Path × List Path × List Path
  | [], checked, nextLevel => (none, checked, nextLevel)
  | c :: rest, checked, nextLevel =>
    let sub : Path := folder ++ [c.dirname]
    if c.symlink = false ∧ sub ∉ checked then
      let checked := checked ++ [sub]
      if hasMarker fs markers sub then (some sub, checked, nextLevel)
      else scanFolder fs markers folder rest checked (nextLevel ++ [sub])
    else scanFolder fs markers folder rest checked nextLevel

/-- One BFS level: process every folder of the queue in order. -/
def bfsLevel (fs : FSTree) (markers : List String) :
    List Path → List Path → List Path → Option Path × List Path × List Path
  | [], checked, nextLevel => (none, checked, nextLevel)
  | folder :: rest, checked, nextLevel =>
    match scanFolder fs markers folder (childDirs fs folder) checked nextLevel with
    | (some s, checked, nextLevel) => (some s, checked, nextLevel)
    | (none, checked, nextLevel) => bfsLevel fs markers rest checked nextLevel

/-- The `while queue and depth < MAX_SEARCH_DEPTH` loop, with
`fuel = MAX_SEARCH_DEPTH - depth`. -/
def bfsLoop (fs : FSTree) (markers : List String) :
    Nat → List Path → List Path → Option Path × List Path
  | 0, _, checked => (none, checked)
  | fuel + 1, queue, checked =>
    if queue = [] then (none, checked)
    else
      match bfsLevel fs markers queue checked [] with
      | (some s, checked, _) => (some s, checked)
      | (none, checked, nextLevel) => bfsLoop fs markers fuel nextLevel checked

/-- The `for up in up_paths` loop of the downward phase, threading the
shared `checked` set. -/
def bfsAll (fs : FSTree) (markers : List String) :
    List Path → List Path → Option Path
  | [], _ => none
  | up :: rest, checked =>
    match bfsLoop fs markers MAX_SEARCH_DEPTH [up] checked with
    | (some s, _) => some s
    | (none, checked) => bfsAll fs markers rest checked

/-- `find_project_root(start_path, marker_files)`: check the ancestor chain
nearest-first, then run the bounded downward BFS from each ancestor in the
same order. `verbose` only controls warnings and is omitted. -/
def find_project_root (fs : FSTree) (start : Path) (markers : List String) :
    Option Path :=
  let ups := upChain start
  match List.find? (fun p => hasMarker fs markers p) ups with
  | some p => some p
  | none => bfsAll fs markers ups ups

/-! ## Line scanners (the three `re.findall` patterns) -/

/-- Python `\s` (ASCII range; file contents in the model are ASCII-ish text,
where `\s` matches exactly these characters). -/
def isPySpace (c : Char) : Bool :=
  c = ' ' || c = '\t' || c = '\n' || c = '\x0b' || c = '\x0c' || c = '\r'

def isAlnumChar (c : Char) : Bool :=
  ('a' ≤ c && c ≤ 'z') || ('A' ≤ c && c ≤ 'Z') || ('0' ≤ c && c ≤ '9')

/-- Regex word character `\w` (ASCII). -/
def isWordChar (c : Char) : Bool := isAlnumChar c || c = '_'

/-- Is `pat` a prefix of `txt`? -/
def hasPfx : List Char → List Char → Bool
  | [], _ => true
  | _ :: _, [] => false
  | p :: ps, c :: cs => p = c && hasPfx ps cs

def strEndsWith (s t : String) : Bool := hasPfx t.data.reverse s.data.reverse

/-- Python `str.lower()` (ASCII; the names compared by the program are
ASCII). -/
def strToLower (s : String) : String := String.mk (s.data.map Char.toLower)

/-- `sep.join(l)`. -/
def joinWith (sep : String) : List String → String
  | [] => ""
  | [x] => x
  | x :: rest => x ++ sep ++ joinWith sep rest

/-- Try to match `#\s*include\s*"([^"]+)"` at the head of `cs`; on success
return the captured group and the remainder after the match. -/
def tryInclude : List Char → Option (String × List Char)
  | '#' :: r0 =>
    let r1 := r0.dropWhile isPySpace
    if hasPfx "include".data r1 then
      let r2 := (r1.drop 7).dropWhile isPySpace
      match r2 with
      | '"' :: r3 =>
        let cap := r3.takeWhile (fun c => c ≠ '"')
        match cap, r3.drop cap.length with
        | [], _ => none
        | _ :: _, '"' :: r4 => some (String.mk cap, r4)
        | _ :: _, _ => none
      | _ => none
    else none
  | _ => none

/-- `re.findall` scanning loop for `tryInclude` (fuel-indexed; the fuel
passed in `findIncludes` always suffices since every step consumes at
least one character). -/
def scanIncludes : Nat → List Char → List String
  | 0, _ => []
  | fuel + 1, cs =>
    match tryInclude cs with
    | some (cap, rest) => cap :: scanIncludes fuel rest
    | none =>
      match cs with
      | [] => []
      | _ :: rest => scanIncludes fuel rest

/-- All captures of `re.findall(r'#\s*include\s*"([^"]+)"', line)`. -/
def findIncludes (line : String) : List String :=
  scanIncludes (line.length + 1) line.data

/-- Character class `[a-zA-Z0-9_.-]`. -/
def isModChar (c : Char) : Bool := isAlnumChar c || c = '_' || c = '.' || c = '-'

/-- Try to match `from\s+([a-zA-Z0-9_.-]+)\s+import` at the head of `cs`
(the character classes of the pattern are pairwise disjoint from `\s`, so
the greedy runs are exactly the maximal runs). -/
def tryFromImport (cs : List Char) : Option (String × List Char) :=
  if hasPfx "from".data cs then
    let r0 := cs.drop 4
    let ws1 := r0.takeWhile isPySpace
    if ws1 = [] then none else
    let r1 := r0.drop ws1.length
    let cap := r1.takeWhile isModChar
    if cap = [] then none else
    let r2 := r1.drop cap.length
    let ws2 := r2.takeWhile isPySpace
    if ws2 = [] then none else
    let r3 := r2.drop ws2.length
    if hasPfx "import".data r3 then some (String.mk cap, r3.drop 6) else none
  else none

def scanFromImports : Nat → List Char → List String
  | 0, _ => []
  | fuel + 1, cs =>
    match tryFromImport cs with
    | some (cap, rest) => cap :: scanFromImports fuel rest
    | none =>
      match cs with
      | [] => []
      | _ :: rest => scanFromImports fuel rest

/-- All captures of `re.findall(r'from\s+([a-zA-Z0-9_.-]+)\s+import', line)`. -/
def findPyFroms (line : String) : List String :=
  scanFromImports (line.length + 1) line.data

/-- The extension alternatives `(?:c|h|sh|py|json|md|cmake)` in regex
alternation order. -/
def cmakeExts : List (List Char) :=
  ["c".data, "h".data, "sh".data, "py".data, "json".data, "md".data, "cmake".data]

/-- Try to match the continuation `\.(?:c|h|sh|py|json|md|cmake)\b` at the
head of `cs`; alternatives are tried in order, as a backtracking regex
engine does. -/
def tryCMakeCont (cs : List Char) : Option (List Char × List Char) :=
  match cs with
  | '.' :: r0 =>
    (cmakeExts.filterMap (fun ext =>
      if hasPfx ext r0 then
        match r0.drop ext.length with
        | [] => some (ext, ([] : List Char))
        | c :: rest => if isWordChar c then none else some (ext, c :: rest)
      else none)).head?
  | _ => none

/-- The lazy middle `[a-zA-Z0-9_.-]*?` of the CMake pattern: at each point
first try the continuation, then consume one more middle character —
exactly the order a lazy quantifier explores. `acc` holds the group
matched so far. -/
def tryCMakeMid : List Char → List Char → Option (String × List Char)
  | _, [] => none
  | acc, c :: rest =>
    match tryCMakeCont (c :: rest) with
    | some (ext, r) => some (String.mk (acc ++ '.' :: ext), r)
    | none =>
      if isModChar c then tryCMakeMid (acc ++ [c]) rest else none

/-- Try the whole CMake pattern
`\b([a-zA-Z0-9][a-zA-Z0-9_.-]*?\.(?:c|h|sh|py|json|md|cmake))\b` at the
head of `cs`; `prev` is the character before `cs` (for the leading `\b`). -/
def tryCMakeAt (prev : Option Char) (cs : List Char) : Option (String × List Char) :=
  match cs with
  | c :: rest =>
    if isAlnumChar c && (match prev with | none => true | some p => !isWordChar p) then
      tryCMakeMid [c] rest
    else none
  | [] => none

def scanCMake : Nat → Option Char → List Char → List String
  | 0, _, _ => []
  | fuel + 1, prev, cs =>
    match tryCMakeAt prev cs with
    | some (cap, rest) =>
      cap :: scanCMake fuel (cap.data.getLast?) rest
    | none =>
      match cs with
      | [] => []
      | c :: rest => scanCMake fuel (some c) rest

/-- All captures of the build-script pattern over one line. -/
def findCMakeRefs (line : String) : List String :=
  scanCMake (line.length + 1) none line.data

/-! ## Path joining and resolution -/

/-- Split a list of characters at `/` (slash-separated segments, with the
empty segments a leading, trailing, or doubled slash produces). -/
def splitSlashAux : List Char → List Char → List String
  | acc, [] => [String.mk acc.reverse]
  | acc, c :: rest =>
    if c = '/' then String.mk acc.reverse :: splitSlashAux [] rest
    else splitSlashAux (c :: acc) rest

def splitSlash (s : String) : List String := splitSlashAux [] s.data

/-- Lexical normalisation of path segments onto an accumulated canonical
path: `""` and `"."` vanish, `".."` drops the last component (the parent
of `/` is `/`). This is what `Path.resolve(strict=False)` computes on a
symlink-free tree — it never fails for a nonexistent target. -/
def normSegs : Path → List String → Path
  | acc, [] => acc
  | acc, seg :: rest =>
    if seg = "" ∨ seg = "." then normSegs acc rest
    else if seg = ".." then normSegs (Path.parent acc) rest
    else normSegs (acc ++ [seg]) rest

/-- `(parent / ref).resolve()` for a path string `ref` (a leading slash
makes `ref` absolute, replacing `parent`). -/
def joinResolve (parent : Path) (ref : String) : Path :=
  let base : Path := if hasPfx "/".data ref.data then [] else parent
  normSegs base (splitSlash ref)

/-- `(file_path.parent / ref).resolve().name` from the include handler. -/
def refName (parent : Path) (ref : String) : String :=
  Path.name (joinResolve parent ref)

/-! ## Interest spec and per-file reference extraction -/

/-- `VALID_EXTENSIONS`, derived from `DEFAULT_FILES_OF_INTEREST`
(`"*.c" ↦ ".c"`, …). -/
def VALID_EXTENSIONS : List String :=
  [".c", ".h", ".json", ".py", ".cmake", ".md", ".sh"]

/-- `VALID_FILENAMES`: the patterns not starting with `*`. -/
def VALID_FILENAMES : List String := ["CMakeLists.txt"]

def DEFAULT_FOLDERS_TO_EXCLUDE : List String := [".git", "build", "build_logs", "doc"]

def DEFAULT_ROOT_MARKER_FILES : List String :=
  ["LICENSE", "sdkconfig", "dependencies.lock", "CMakeLists.txt"]

/-- `matches_interest_patterns`: exact filename match or extension match. -/
def matches_interest_patterns (name : String) : Bool :=
  VALID_FILENAMES.contains name || VALID_EXTENSIONS.contains (pySuffix name)

/-- The references one file's content yields, in extraction order: the
`if/elif` chain over the file kind from the reading loop of
`analyze_project_files`. C/C++ includes and CMake mentions are passed
through `(file_path.parent / ref).resolve().name`; Python imports get
`".py"` appended to the whole captured dotted path. -/
def refsOfFile (dirpath : Path) (f : FileEnt) : List String :=
  if pySuffix f.name = ".c" ∨ pySuffix f.name = ".h" then
    (f.lines.flatMap findIncludes).map (refName dirpath)
  else if strEndsWith (strToLower f.name) ".cmake" ∨
      strEndsWith (strToLower f.name) "cmakelists.txt" then
    (f.lines.flatMap findCMakeRefs).map (refName dirpath)
  else if pySuffix f.name = ".py" then
    (f.lines.flatMap findPyFroms).map (fun r => r ++ ".py")
  else []

/-! ## The traversal (`os.walk` with pruning) -/

/-- One `os.walk` triple: the directory's path, its subdirectory names
before pruning, and its file entries. -/
structure WalkEntry where
  dirpath : Path
  dirnames : List String
  files : List FileEnt
deriving DecidableEq

mutual

/-- `os.walk(root, topdown=True)` with the in-loop pruning
`dirnames[:] = [d for d in dirnames if d not in exclude_dirs]` baked in:
the entry lists the original `dirnames`, descent happens only into kept,
non-symlink subdirectories (`followlinks` defaults to `False`), in listing
order. -/
def walkTree (excl : List String) (cur : Path) : FSTree → List WalkEntry
  | .node _ _ subs fl =>
    ⟨cur, subs.map FSTree.dirname, fl⟩ :: walkSubs excl cur subs

/-- Companion of `walkTree`: descend into the kept subdirectories. -/
def walkSubs (excl : List String) (cur : Path) : List FSTree → List WalkEntry
  | [] => []
  | c :: rest =>
    (if excl.contains c.dirname ∨ c.symlink = true then []
     else walkTree excl (cur ++ [c.dirname]) c) ++ walkSubs excl cur rest

end

/-! ## The single-pass catalog / reference builder -/

/-- The accumulators of `analyze_project_files`, in declaration order.
`list_referenced` and `found_files_map` are insertion-ordered association
lists standing for `defaultdict(set)` / `defaultdict(list)`. -/
structure AnalysisResult where
  list_exist : List Path
  list_referenced : List (String × List Path)
  found_files_map : List (String × List Path)
  key_subfolders : List (String × Path)
  no_go_areas : List Path
deriving DecidableEq

def emptyResult : AnalysisResult := ⟨[], [], [], [], []⟩

/-- `found_files_map[n].append(p)` on an insertion-ordered dict. -/
def addPath : List (String × List Path) → String → Path → List (String × List Path)
  | [], n, p => [(n, [p])]
  | (k, ps) :: rest, n, p =>
    if k = n then (k, ps ++ [p]) :: rest else (k, ps) :: addPath rest n p

/-- `list_referenced[n].add(p)` — the value is a set, so adding an already
present path is a no-op. -/
def addRef : List (String × List Path) → String → Path → List (String × List Path)
  | [], n, p => [(n, [p])]
  | (k, ps) :: rest, n, p =>
    if k = n then (k, if p ∈ ps then ps else ps ++ [p]) :: rest
    else (k, ps) :: addRef rest n p

/-- The `for ref in refs: list_referenced[ref_path].add(file_path)` loop:
merge a list of referenced basenames, all referenced by `p`. -/
def refsFold (p : Path) (l : List String) (st : AnalysisResult) : AnalysisResult :=
  l.foldl (fun s r => { s with list_referenced := addRef s.list_referenced r p }) st

/-- Processing of one directory entry's file: symlinks are skipped
entirely; an interest match is cataloged; then the file's content is read
and its references merged (reads never fail in the model). -/
def stepFile (dirpath : Path) (st : AnalysisResult) (f : FileEnt) : AnalysisResult :=
  if f.symlink then st else
  let path : Path := dirpath ++ [f.name]
  let st1 :=
    if matches_interest_patterns f.name then
      { st with list_exist := st.list_exist ++ [path],
                found_files_map := addPath st.found_files_map f.name path }
    else st
  refsFold path (refsOfFile dirpath f) st1

/-- `str(current_path.relative_to(root_path))`. -/
def relStr (root p : Path) : String := joinWith "/" (p.drop root.length)

/-- The body of the `for dirpath, dirnames, filenames in os.walk(...)` loop:
record pruned paths, then `continue` if any excluded name occurs among the
path's components, else record the subfolder and process the files. -/
def stepEntry (root : Path) (excl : List String) (st : AnalysisResult)
    (e : WalkEntry) : AnalysisResult :=
  let st := { st with no_go_areas := st.no_go_areas ++
      ((e.dirnames.filter (fun d => excl.contains d)).map (fun d => e.dirpath ++ [d])) }
  if excl.any (fun x => e.dirpath.contains x) then st
  else
    let st :=
      if e.dirpath ≠ root then
        { st with key_subfolders :=
            st.key_subfolders ++ [(relStr root e.dirpath, e.dirpath)] }
      else st
    e.files.foldl (stepFile e.dirpath) st

/-- The sequence of `os.walk` triples the analysis loop consumes: the walk
from the root directory (nothing, if the root does not exist). -/
def walkEntries (fs : FSTree) (root : Path) (excl : List String) : List WalkEntry :=
  match lookupDir fs root with
  | some t => walkTree excl root t
  | none => []

/-- `analyze_project_files(root_path, exclude_dirs)`: one walk from the
root, folding every yielded directory through the loop body. -/
def analyze_project_files (fs : FSTree) (root : Path) (excl : List String) :
    AnalysisResult :=
  (walkEntries fs root excl).foldl (stepEntry root excl) emptyResult

/-! ## Report classification (`generate_report`) -/

/-- `str(path)` of a canonical absolute path — the key Python compares
when sorting `Path` objects on POSIX. -/
def pathStr (p : Path) : String := "/" ++ joinWith "/" p

/-- Lexicographic order by code point — what Python string comparison is. -/
def lexLt : List Char → List Char → Bool
  | [], [] => false
  | [], _ :: _ => true
  | _ :: _, [] => false
  | a :: as, b :: bs =>
    if a.toNat < b.toNat then true
    else if b.toNat < a.toNat then false
    else lexLt as bs

def strLe (a b : String) : Bool := !lexLt b.data a.data

/-- Stable insertion into a sorted list (ascending). -/
def insSortedBy (le : α → α → Bool) (x : α) : List α → List α
  | [] => [x]
  | y :: t => if le x y then x :: y :: t else y :: insSortedBy le x t

/-- Python `sorted` on strings (lexicographic by code point, stable). -/
def sortStrs (l : List String) : List String := l.foldr (insSortedBy strLe) []

/-- Python `sorted` on paths (compares the path strings on POSIX). -/
def sortPaths (l : List Path) : List Path :=
  l.foldr (insSortedBy (fun a b => strLe (pathStr a) (pathStr b))) []

/-- Python `sorted(d.items())`: keys are unique, so the name decides. -/
def sortByName (l : List (String × List Path)) : List (String × List Path) :=
  l.foldr (insSortedBy (fun a b => strLe a.1 b.1)) []

/-- `set(p.name for p in list_exist)`. -/
def existSet (st : AnalysisResult) : List String :=
  (st.list_exist.map Path.name).dedup

/-- `set(list_referenced.keys())` (keys of the dict are already unique). -/
def refSet (st : AnalysisResult) : List String :=
  st.list_referenced.map Prod.fst

/-- `orphan_basenames = sorted(list(exist_set - ref_set))`. -/
def orphan_basenames (st : AnalysisResult) : List String :=
  sortStrs ((existSet st).filter (fun b => !(refSet st).contains b))

/-- `missing_basenames = sorted(list(ref_set - exist_set))`. -/
def missing_basenames (st : AnalysisResult) : List String :=
  sortStrs ((refSet st).filter (fun b => !(existSet st).contains b))

/-- Dict lookup with the `defaultdict` default. -/
def lookupMap (m : List (String × List Path)) (n : String) : List Path :=
  match m.find? (fun kv => kv.1 = n) with
  | some kv => kv.2
  | none => []

/-- The paths printed in Details of Orphan Files: `found_files_map[name]`
for each orphan basename in order. -/
def orphan_paths (st : AnalysisResult) : List Path :=
  (orphan_basenames st).flatMap (fun n => lookupMap st.found_files_map n)

/-- The extension classes of the Warnings section, in print order. -/
def dupExts : List String := [".c", ".h", ".py", ".sh"]

/-- The duplicate entries printed under one extension class: iterate
`sorted(found_files_map.items())`; a basename qualifies when its lowercased
name ends with the class and it has more than one path; the printed path
list is `paths[0]` followed by `sorted(paths)[1:]`. -/
def dup_entries (st : AnalysisResult) (ext : String) : List (String × List Path) :=
  (sortByName st.found_files_map).filterMap (fun kv =>
    if strEndsWith (strToLower kv.1) (strToLower ext) && decide (kv.2.length > 1) then
      match kv.2 with
      | [] => none
      | p0 :: _ => some (kv.1, p0 :: (sortPaths kv.2).drop 1)
    else none)

/-! ## `main` -/

/-- The exit-relevant behaviour of `main`: locate the root; on failure
`sys.exit(1)`, otherwise analyze, generate the report (pure data in the
model) and fall off the end of `main` — exit code 0. -/
def main_run (fs : FSTree) (start : Path) (markers : List String)
    (excl : List String) : Nat × Option AnalysisResult :=
  match find_project_root fs start markers with
  | none => (1, none)
  | some root => (0, some (analyze_project_files fs root excl))

/-- The key list of an insertion-ordered dict. -/
def keysOf (m : List (String × List Path)) : List String := m.map Prod.fst

/-- Every path stored under a basename key really has that basename — the
invariant `found_files_map` enjoys because files are always inserted under
their own name. -/
def MapInv (m : List (String × List Path)) : Prop :=
  ∀ kv ∈ m, ∀ p ∈ kv.2, Path.name p = kv.1

/-! ## Concrete example trees used as witnesses and counterexamples -/

/-- Concrete tree: a project root `/proj` holding a `LICENSE` marker and a
`main.c` whose only line includes the nowhere-existing header `foo.h`. -/
def treeA : FSTree :=
  .node "" false
    [.node "proj" false []
      [⟨"LICENSE", [], false⟩, ⟨"main.c", ["#include \"foo.h\""], false⟩]]
    []

/-- Concrete tree: `/home/proj` has no marker anywhere on its ancestor
chain, but its subdirectory `build` (an excluded name) holds a `LICENSE`
marker. -/
def treeB : FSTree :=
  .node "" false
    [.node "home" false
      [.node "proj" false
        [.node "build" false [] [⟨"LICENSE", [], false⟩]]
        [⟨"x.c", [], false⟩]]
      []]
    []

/-- Concrete tree: like `treeB` but the root `/home/proj` itself carries a
marker, so the scan runs from there and prunes `build`. -/
def treeB2 : FSTree :=
  .node "" false
    [.node "home" false
      [.node "proj" false
        [.node "build" false [] [⟨"LICENSE", [], false⟩]]
        [⟨"x.c", [], false⟩, ⟨"LICENSE", [], false⟩]]
      []]
    []

/-- Concrete tree: a `.py` file importing from the nested module path
`pkg.helpers`. -/
def treeC : FSTree :=
  .node "" false
    [.node "proj" false []
      [⟨"LICENSE", [], false⟩, ⟨"m.py", ["from pkg.helpers import x"], false⟩]]
    []

/-- Concrete tree: a `.py` file importing from the flat module `helpers`
with no `helpers.py` anywhere (spec Scenario D). -/
def treeD : FSTree :=
  .node "" false
    [.node "proj" false []
      [⟨"LICENSE", [], false⟩, ⟨"m.py", ["from helpers import thing"], false⟩]]
    []

/-- Concrete tree: two `util.c` files in subdirectories `zz` and `aa`, with
traversal order (`zz` first) opposite to lexicographic order. -/
def treeE : FSTree :=
  .node "" false
    [.node "proj" false
      [.node "zz" false [] [⟨"util.c", [], false⟩],
       .node "aa" false [] [⟨"util.c", [], false⟩]]
      [⟨"LICENSE", [], false⟩]]
    []

/-- Concrete tree: `a.c` includes `b.h`; `b.h` exists both at the root and
as a never-referenced copy in `sub`. -/
def treeF : FSTree :=
  .node "" false
    [.node "proj" false
      [.node "sub" false [] [⟨"b.h", [], false⟩]]
      [⟨"LICENSE", [], false⟩, ⟨"a.c", ["#include \"b.h\""], false⟩,
       ⟨"b.h", [], false⟩]]
    []

/-- Concrete tree: both the start directory `/g/p/s` and its grandparent
`/g` contain a marker. -/
def treeG : FSTree :=
  .node "" false
    [.node "g" false
      [.node "p" false
        [.node "s" false [] [⟨"LICENSE", [], false⟩]]
        []]
      [⟨"LICENSE", [], false⟩]]
    []

/-- Concrete tree: the project root `/build/proj` lies underneath a
directory named `build`, which is in the default exclusion set. -/
def treeH : FSTree :=
  .node "" false
    [.node "build" false
      [.node "proj" false
        [.node "sub" false [] [⟨"a.c", ["#include \"b.h\""], false⟩]]
        [⟨"LICENSE", [], false⟩, ⟨"main.c", [], false⟩]]
      []]
    []

/-! ## Supporting lemmas -/

theorem foldl_preserve {α β : Type _} (P : β → Prop) (step : β → α → β)
    (h : ∀ b a, P b → P (step b a)) :
    ∀ (l : List α) (b : β), P b → P (l.foldl step b)
  | [], _, hb => hb
  | a :: t, b, hb => foldl_preserve P step h t (step b a) (h b a hb)

theorem foldl_attain {α β : Type _} [DecidableEq α] (P : β → Prop) (step : β → α → β)
    (h : ∀ b a, P b → P (step b a)) (a : α) (hadd : ∀ b, P (step b a)) :
    ∀ (l : List α) (b : β), a ∈ l → P (l.foldl step b)
  | x :: t, b, hmem => by
    by_cases hx : a = x
    · subst hx
      exact foldl_preserve P step h t (step b a) (hadd b)
    · have ht : a ∈ t := by
        rcases List.mem_cons.mp hmem with h1 | h1
        · exact absurd h1 hx
        · exact h1
      exact foldl_attain P step h a hadd t (step b x) ht

theorem contains_eq_mem {l : List String} {a : String} :
    l.contains a = true ↔ a ∈ l := by
  simp [List.contains]

theorem mem_insSortedBy {le : α → α → Bool} {x a : α} : ∀ {l : List α},
    x ∈ insSortedBy le a l ↔ x = a ∨ x ∈ l
  | [] => by simp [insSortedBy]
  | y :: t => by
    simp only [insSortedBy]
    by_cases hle : le a y = true
    · simp [hle]
    · simp only [if_neg hle, List.mem_cons, mem_insSortedBy (l := t)]
      tauto

theorem mem_sortStrs {x : String} : ∀ {l : List String}, x ∈ sortStrs l ↔ x ∈ l
  | [] => Iff.rfl
  | a :: t => by
    show x ∈ insSortedBy strLe a (sortStrs t) ↔ _
    rw [mem_insSortedBy, mem_sortStrs (l := t)]
    simp

theorem insSortedBy_perm (le : α → α → Bool) (a : α) : ∀ (l : List α),
    (insSortedBy le a l).Perm (a :: l)
  | [] => List.Perm.refl _
  | y :: t => by
    simp only [insSortedBy]
    by_cases hle : le a y = true
    · simp [hle]
    · rw [if_neg hle]
      exact ((insSortedBy_perm le a t).cons y).trans (List.Perm.swap a y t)

theorem sortByName_perm : ∀ (l : List (String × List Path)), (sortByName l).Perm l
  | [] => List.Perm.refl _
  | a :: t =>
    (insSortedBy_perm _ a (sortByName t)).trans ((sortByName_perm t).cons a)

theorem mem_keysOf_addRef {m : List (String × List Path)} {n b : String} {p : Path} :
    b ∈ keysOf (addRef m n p) ↔ b ∈ keysOf m ∨ b = n := by
  induction m with
  | nil => simp [addRef, keysOf]
  | cons kv rest ih =>
    obtain ⟨k, ps⟩ := kv
    by_cases hk : k = n
    · subst hk
      simp [addRef, keysOf]
      tauto
    · simp only [addRef, if_neg hk, keysOf, List.map_cons, List.mem_cons]
      rw [show (addRef rest n p).map Prod.fst = keysOf (addRef rest n p) from rfl, ih]
      simp [keysOf]
      tauto

theorem mem_keysOf_addPath {m : List (String × List Path)} {n b : String} {p : Path} :
    b ∈ keysOf (addPath m n p) ↔ b ∈ keysOf m ∨ b = n := by
  induction m with
  | nil => simp [addPath, keysOf]
  | cons kv rest ih =>
    obtain ⟨k, ps⟩ := kv
    by_cases hk : k = n
    · subst hk
      simp [addPath, keysOf]
      tauto
    · simp only [addPath, if_neg hk, keysOf, List.map_cons, List.mem_cons]
      rw [show (addPath rest n p).map Prod.fst = keysOf (addPath rest n p) from rfl, ih]
      simp [keysOf]
      tauto

theorem keysOf_addPath_nodup {m : List (String × List Path)} {n : String} {p : Path}
    (h : (keysOf m).Nodup) : (keysOf (addPath m n p)).Nodup := by
  induction m with
  | nil => simp [addPath, keysOf]
  | cons kv rest ih =>
    obtain ⟨k, ps⟩ := kv
    simp only [keysOf, List.map_cons, List.nodup_cons] at h
    by_cases hk : k = n
    · subst hk
      simpa [addPath, keysOf] using h
    · simp only [addPath, if_neg hk, keysOf, List.map_cons, List.nodup_cons]
      refine ⟨fun hmem => ?_, ih h.2⟩
      rcases mem_keysOf_addPath.mp hmem with h1 | h1
      · exact h.1 h1
      · exact hk h1

theorem mapInv_addPath {m : List (String × List Path)} {n : String} {p : Path}
    (h : MapInv m) (hp : Path.name p = n) : MapInv (addPath m n p) := by
  induction m with
  | nil =>
    intro kv hkv q hq
    simp only [addPath, List.mem_singleton] at hkv
    subst hkv
    simp only [List.mem_singleton] at hq
    subst hq
    exact hp
  | cons kv0 rest ih =>
    obtain ⟨k, ps⟩ := kv0
    have hhead := h (k, ps) (List.mem_cons_self _ _)
    have htail : MapInv rest := fun kv hkv => h kv (List.mem_cons_of_mem _ hkv)
    by_cases hk : k = n
    · subst hk
      have heq : addPath ((k, ps) :: rest) k p = (k, ps ++ [p]) :: rest := by
        simp [addPath]
      rw [heq]
      intro kv hkv q hq
      rcases List.mem_cons.mp hkv with hkv1 | hkv1
      · subst hkv1
        rcases List.mem_append.mp hq with hq1 | hq1
        · exact hhead q hq1
        · rw [List.mem_singleton.mp hq1]; exact hp
      · exact htail kv hkv1 q hq
    · have heq : addPath ((k, ps) :: rest) n p = (k, ps) :: addPath rest n p := by
        simp [addPath, hk]
      rw [heq]
      intro kv hkv q hq
      rcases List.mem_cons.mp hkv with hkv1 | hkv1
      · subst hkv1; exact hhead q hq
      · exact ih htail kv hkv1 q hq

theorem Path.name_concat (d : Path) (x : String) : Path.name (d ++ [x]) = x := by
  simp [Path.name, List.getLast?_concat]

theorem refsFold_ffm (p : Path) :
    ∀ (l : List String) (st : AnalysisResult),
      (refsFold p l st).found_files_map = st.found_files_map
  | [], _ => rfl
  | r :: t, st => refsFold_ffm p t _

theorem refsFold_exist (p : Path) :
    ∀ (l : List String) (st : AnalysisResult),
      (refsFold p l st).list_exist = st.list_exist
  | [], _ => rfl
  | r :: t, st => refsFold_exist p t _

theorem refsFold_no_go (p : Path) :
    ∀ (l : List String) (st : AnalysisResult),
      (refsFold p l st).no_go_areas = st.no_go_areas
  | [], _ => rfl
  | r :: t, st => refsFold_no_go p t _

theorem refsFold_key (p : Path) :
    ∀ (l : List String) (st : AnalysisResult),
      (refsFold p l st).key_subfolders = st.key_subfolders
  | [], _ => rfl
  | r :: t, st => refsFold_key p t _

theorem refsFold_lr_mono {b : String} (p : Path) :
    ∀ (l : List String) (st : AnalysisResult),
      b ∈ keysOf st.list_referenced →
      b ∈ keysOf (refsFold p l st).list_referenced
  | [], _, hb => hb
  | r :: t, st, hb =>
    refsFold_lr_mono p t _ (mem_keysOf_addRef.mpr (Or.inl hb))

theorem refsFold_lr_adds {r : String} (p : Path) :
    ∀ (l : List String) (st : AnalysisResult), r ∈ l →
      r ∈ keysOf (refsFold p l st).list_referenced
  | x :: t, st, hr => by
    by_cases hx : r = x
    · subst hx
      exact refsFold_lr_mono p t _ (mem_keysOf_addRef.mpr (Or.inr rfl))
    · have ht : r ∈ t := by
        rcases List.mem_cons.mp hr with h1 | h1
        · exact absurd h1 hx
        · exact h1
      exact refsFold_lr_adds p t _ ht

theorem stepFile_ffm (d : Path) (st : AnalysisResult) (f : FileEnt) :
    (stepFile d st f).found_files_map =
      if f.symlink = false ∧ matches_interest_patterns f.name = true then
        addPath st.found_files_map f.name (d ++ [f.name])
      else st.found_files_map := by
  unfold stepFile
  by_cases hs : f.symlink = true
  · simp [hs]
  · have hs' : f.symlink = false := by simpa using hs
    by_cases hm : matches_interest_patterns f.name = true
    · simp [hs', hm, refsFold_ffm]
    · simp [hs', hm, refsFold_ffm]

theorem stepFile_exist (d : Path) (st : AnalysisResult) (f : FileEnt) :
    (stepFile d st f).list_exist =
      if f.symlink = false ∧ matches_interest_patterns f.name = true then
        st.list_exist ++ [d ++ [f.name]]
      else st.list_exist := by
  unfold stepFile
  by_cases hs : f.symlink = true
  · simp [hs]
  · have hs' : f.symlink = false := by simpa using hs
    by_cases hm : matches_interest_patterns f.name = true
    · simp [hs', hm, refsFold_exist]
    · simp [hs', hm, refsFold_exist]

theorem stepFile_no_go (d : Path) (st : AnalysisResult) (f : FileEnt) :
    (stepFile d st f).no_go_areas = st.no_go_areas := by
  unfold stepFile
  by_cases hs : f.symlink = true
  · simp [hs]
  · by_cases hm : matches_interest_patterns f.name = true <;>
      simp [hs, hm, refsFold_no_go]

theorem stepFile_lr_mono {b : String} (d : Path) (st : AnalysisResult) (f : FileEnt)
    (hb : b ∈ keysOf st.list_referenced) :
    b ∈ keysOf (stepFile d st f).list_referenced := by
  unfold stepFile
  by_cases hs : f.symlink = true
  · simp only [hs, if_pos rfl]; exact hb
  · by_cases hm : matches_interest_patterns f.name = true <;>
      simp only [hs, hm] <;> exact refsFold_lr_mono _ _ _ hb

theorem stepFile_lr_adds {r : String} (d : Path) (st : AnalysisResult) (f : FileEnt)
    (hsym : f.symlink = false) (hr : r ∈ refsOfFile d f) :
    r ∈ keysOf (stepFile d st f).list_referenced := by
  unfold stepFile
  simp only [hsym]
  by_cases hm : matches_interest_patterns f.name = true <;>
    simp only [hm] <;> exact refsFold_lr_adds _ _ _ hr

theorem stepFile_mapInv (d : Path) (st : AnalysisResult) (f : FileEnt)
    (h : MapInv st.found_files_map) : MapInv (stepFile d st f).found_files_map := by
  rw [stepFile_ffm]
  by_cases hc : f.symlink = false ∧ matches_interest_patterns f.name = true
  · rw [if_pos hc]
    exact mapInv_addPath h (Path.name_concat d f.name)
  · rw [if_neg hc]; exact h

theorem stepFile_keys_nodup (d : Path) (st : AnalysisResult) (f : FileEnt)
    (h : (keysOf st.found_files_map).Nodup) :
    (keysOf (stepFile d st f).found_files_map).Nodup := by
  rw [stepFile_ffm]
  by_cases hc : f.symlink = false ∧ matches_interest_patterns f.name = true
  · rw [if_pos hc]; exact keysOf_addPath_nodup h
  · rw [if_neg hc]; exact h

theorem stepEntry_lr_mono {b : String} (root : Path) (excl : List String)
    (st : AnalysisResult) (e : WalkEntry)
    (hb : b ∈ keysOf st.list_referenced) :
    b ∈ keysOf (stepEntry root excl st e).list_referenced := by
  simp only [stepEntry]
  by_cases hskip : excl.any (fun x => e.dirpath.contains x) = true
  · rw [if_pos hskip]; exact hb
  · rw [if_neg hskip]
    refine foldl_preserve (fun s => b ∈ keysOf s.list_referenced)
      (stepFile e.dirpath)
      (fun s f h => by
        show b ∈ keysOf (stepFile e.dirpath s f).list_referenced
        exact stepFile_lr_mono e.dirpath s f h)
      e.files _ ?_
    dsimp only
    split <;> exact hb

theorem stepEntry_lr_adds {r : String} (root : Path) (excl : List String)
    (st : AnalysisResult) (e : WalkEntry)
    (hskip : excl.any (fun x => e.dirpath.contains x) = false)
    (f : FileEnt) (hf : f ∈ e.files) (hsym : f.symlink = false)
    (hr : r ∈ refsOfFile e.dirpath f) :
    r ∈ keysOf (stepEntry root excl st e).list_referenced := by
  simp only [stepEntry]
  rw [if_neg (by rw [hskip]; exact Bool.false_ne_true)]
  exact foldl_attain (fun s => r ∈ keysOf s.list_referenced)
    (stepFile e.dirpath)
    (fun s g h => by
      show r ∈ keysOf (stepFile e.dirpath s g).list_referenced
      exact stepFile_lr_mono e.dirpath s g h)
    f (fun s => stepFile_lr_adds e.dirpath s f hsym hr) e.files _ hf

theorem stepEntry_no_go_mono {p : Path} (root : Path) (excl : List String)
    (st : AnalysisResult) (e : WalkEntry)
    (hp : p ∈ st.no_go_areas) :
    p ∈ (stepEntry root excl st e).no_go_areas := by
  simp only [stepEntry]
  by_cases hskip : excl.any (fun x => e.dirpath.contains x) = true
  · rw [if_pos hskip]
    exact List.mem_append_left _ hp
  · rw [if_neg hskip]
    refine foldl_preserve (fun s => p ∈ s.no_go_areas)
      (stepFile e.dirpath)
      (fun s f h => by
        show p ∈ (stepFile e.dirpath s f).no_go_areas
        rw [stepFile_no_go]; exact h)
      e.files _ ?_
    dsimp only
    split <;> exact List.mem_append_left _ hp

theorem stepEntry_no_go_adds {d : String} (root : Path) (excl : List String)
    (st : AnalysisResult) (e : WalkEntry)
    (hd : d ∈ e.dirnames) (hx : excl.contains d = true) :
    (e.dirpath ++ [d]) ∈ (stepEntry root excl st e).no_go_areas := by
  have hmem : (e.dirpath ++ [d]) ∈ st.no_go_areas ++
      ((e.dirnames.filter (fun d => excl.contains d)).map (fun d => e.dirpath ++ [d])) :=
    List.mem_append_right _
      (List.mem_map.mpr ⟨d, List.mem_filter.mpr ⟨hd, hx⟩, rfl⟩)
  simp only [stepEntry]
  by_cases hskip : excl.any (fun x => e.dirpath.contains x) = true
  · rw [if_pos hskip]
    exact hmem
  · rw [if_neg hskip]
    refine foldl_preserve (fun s => (e.dirpath ++ [d]) ∈ s.no_go_areas)
      (stepFile e.dirpath)
      (fun s f h => by
        show (e.dirpath ++ [d]) ∈ (stepFile e.dirpath s f).no_go_areas
        rw [stepFile_no_go]; exact h)
      e.files _ ?_
    dsimp only
    split <;> exact hmem

theorem stepEntry_skip_proj (root : Path) (excl : List String)
    (st : AnalysisResult) (e : WalkEntry)
    (hskip : excl.any (fun x => e.dirpath.contains x) = true) :
    (stepEntry root excl st e).list_exist = st.list_exist ∧
    (stepEntry root excl st e).list_referenced = st.list_referenced ∧
    (stepEntry root excl st e).found_files_map = st.found_files_map := by
  simp only [stepEntry]
  rw [if_pos hskip]
  exact ⟨rfl, rfl, rfl⟩

theorem stepEntry_mapInv (root : Path) (excl : List String)
    (st : AnalysisResult) (e : WalkEntry)
    (h : MapInv st.found_files_map) :
    MapInv (stepEntry root excl st e).found_files_map := by
  simp only [stepEntry]
  by_cases hskip : excl.any (fun x => e.dirpath.contains x) = true
  · rw [if_pos hskip]; exact h
  · rw [if_neg hskip]
    refine foldl_preserve (fun s => MapInv s.found_files_map)
      (stepFile e.dirpath)
      (fun s f hm => by
        show MapInv (stepFile e.dirpath s f).found_files_map
        exact stepFile_mapInv e.dirpath s f hm)
      e.files _ ?_
    dsimp only
    split <;> exact h

theorem stepEntry_keys_nodup (root : Path) (excl : List String)
    (st : AnalysisResult) (e : WalkEntry)
    (h : (keysOf st.found_files_map).Nodup) :
    (keysOf (stepEntry root excl st e).found_files_map).Nodup := by
  simp only [stepEntry]
  by_cases hskip : excl.any (fun x => e.dirpath.contains x) = true
  · rw [if_pos hskip]; exact h
  · rw [if_neg hskip]
    refine foldl_preserve (fun s => (keysOf s.found_files_map).Nodup)
      (stepFile e.dirpath)
      (fun s f hm => by
        show (keysOf (stepFile e.dirpath s f).found_files_map).Nodup
        exact stepFile_keys_nodup e.dirpath s f hm)
      e.files _ ?_
    dsimp only
    split <;> exact h

theorem analyze_mapInv (fs : FSTree) (root : Path) (excl : List String) :
    MapInv (analyze_project_files fs root excl).found_files_map := by
  refine foldl_preserve (fun s => MapInv s.found_files_map) (stepEntry root excl)
    (fun s e h => stepEntry_mapInv root excl s e h)
    (walkEntries fs root excl) emptyResult ?_
  intro kv hkv
  exact absurd hkv (List.not_mem_nil kv)

theorem analyze_keys_nodup (fs : FSTree) (root : Path) (excl : List String) :
    (keysOf (analyze_project_files fs root excl).found_files_map).Nodup := by
  refine foldl_preserve (fun s => (keysOf s.found_files_map).Nodup)
    (stepEntry root excl)
    (fun s e h => stepEntry_keys_nodup root excl s e h)
    (walkEntries fs root excl) emptyResult ?_
  exact List.nodup_nil

theorem analyze_lr_adds {r : String} (fs : FSTree) (root : Path) (excl : List String)
    (e : WalkEntry) (he : e ∈ walkEntries fs root excl)
    (hskip : excl.any (fun x => e.dirpath.contains x) = false)
    (f : FileEnt) (hf : f ∈ e.files) (hsym : f.symlink = false)
    (hr : r ∈ refsOfFile e.dirpath f) :
    r ∈ keysOf (analyze_project_files fs root excl).list_referenced := by
  refine foldl_attain (fun s => r ∈ keysOf s.list_referenced) (stepEntry root excl)
    (fun s e2 h => stepEntry_lr_mono root excl s e2 h)
    e (fun s => stepEntry_lr_adds root excl s e hskip f hf hsym hr)
    (walkEntries fs root excl) emptyResult he

theorem analyze_no_go_adds {d : String} (fs : FSTree) (root : Path)
    (excl : List String) (e : WalkEntry) (he : e ∈ walkEntries fs root excl)
    (hd : d ∈ e.dirnames) (hx : excl.contains d = true) :
    (e.dirpath ++ [d]) ∈ (analyze_project_files fs root excl).no_go_areas := by
  refine foldl_attain (fun s => (e.dirpath ++ [d]) ∈ s.no_go_areas)
    (stepEntry root excl)
    (fun s e2 h => stepEntry_no_go_mono root excl s e2 h)
    e (fun s => stepEntry_no_go_adds root excl s e hd hx)
    (walkEntries fs root excl) emptyResult he

theorem foldl_preserve_mem {α β : Type _} (P : β → Prop) (step : β → α → β) :
    ∀ (l : List α), (∀ b, ∀ a ∈ l, P b → P (step b a)) →
      ∀ (b : β), P b → P (l.foldl step b)
  | [], _, _, hb => hb
  | a :: t, h, b, hb =>
    foldl_preserve_mem P step t
      (fun b2 a2 ha2 => h b2 a2 (List.mem_cons_of_mem _ ha2))
      (step b a) (h b a (List.mem_cons_self a t) hb)

theorem buildUp_prefix : ∀ (n : Nat) (curr : Path) (ups : List Path),
    ∃ t, buildUp n curr ups = ups ++ t
  | 0, _, ups => ⟨[], (List.append_nil ups).symm⟩
  | n + 1, curr, ups => by
    unfold buildUp
    by_cases hp : Path.parent curr ∈ ups
    · rw [if_pos hp]
      exact buildUp_prefix n _ ups
    · rw [if_neg hp]
      obtain ⟨t, ht⟩ := buildUp_prefix n (Path.parent curr) (ups ++ [Path.parent curr])
      exact ⟨[Path.parent curr] ++ t, by rw [ht, List.append_assoc]⟩

theorem upChain_head (start : Path) : ∃ t, upChain start = start :: t := by
  obtain ⟨t, ht⟩ := buildUp_prefix MAX_SEARCH_DEPTH start [start]
  exact ⟨t, by rw [upChain, ht]; rfl⟩

mutual

theorem walkTree_dirpath_prefix (excl : List String) (cur : Path) :
    ∀ (t : FSTree), ∀ e ∈ walkTree excl cur t, ∃ s, e.dirpath = cur ++ s
  | .node d sl subs fl, e, he =>
    match List.mem_cons.mp he with
    | Or.inl h1 => ⟨[], by rw [h1]; simp⟩
    | Or.inr h1 => walkSubs_dirpath_prefix excl cur subs e h1

theorem walkSubs_dirpath_prefix (excl : List String) (cur : Path) :
    ∀ (l : List FSTree), ∀ e ∈ walkSubs excl cur l, ∃ s, e.dirpath = cur ++ s
  | [], e, he => absurd he (List.not_mem_nil e)
  | c :: rest, e, he => by
    have he2 : e ∈ (if excl.contains c.dirname ∨ c.symlink = true then []
        else walkTree excl (cur ++ [c.dirname]) c) ++ walkSubs excl cur rest := he
    rcases List.mem_append.mp he2 with h1 | h1
    · by_cases hc : excl.contains c.dirname ∨ c.symlink = true
      · rw [if_pos hc] at h1
        exact absurd h1 (List.not_mem_nil e)
      · rw [if_neg hc] at h1
        obtain ⟨s, hs⟩ := walkTree_dirpath_prefix excl (cur ++ [c.dirname]) c e h1
        exact ⟨c.dirname :: s, by rw [hs, List.append_assoc]; rfl⟩
    · exact walkSubs_dirpath_prefix excl cur rest e h1

end

theorem walkEntries_prefix (fs : FSTree) (root : Path) (excl : List String) :
    ∀ e ∈ walkEntries fs root excl, ∃ s, e.dirpath = root ++ s := by
  intro e he
  unfold walkEntries at he
  cases h : lookupDir fs root with
  | none => rw [h] at he; exact absurd he (List.not_mem_nil e)
  | some t => rw [h] at he; exact walkTree_dirpath_prefix excl root t e he

theorem contains_eq_false {l : List String} {a : String} :
    l.contains a = false ↔ a ∉ l := by
  rw [← Bool.not_eq_true, contains_eq_mem]

theorem mem_orphan_iff {st : AnalysisResult} {b : String} :
    b ∈ orphan_basenames st ↔ b ∈ existSet st ∧ b ∉ refSet st := by
  unfold orphan_basenames
  rw [mem_sortStrs, List.mem_filter]
  constructor
  · rintro ⟨h1, h2⟩
    exact ⟨h1, contains_eq_false.mp (by simpa using h2)⟩
  · rintro ⟨h1, h2⟩
    exact ⟨h1, by simpa using contains_eq_false.mpr h2⟩

theorem mem_missing_iff {st : AnalysisResult} {b : String} :
    b ∈ missing_basenames st ↔ b ∈ refSet st ∧ b ∉ existSet st := by
  unfold missing_basenames
  rw [mem_sortStrs, List.mem_filter]
  constructor
  · rintro ⟨h1, h2⟩
    exact ⟨h1, contains_eq_false.mp (by simpa using h2)⟩
  · rintro ⟨h1, h2⟩
    exact ⟨h1, by simpa using contains_eq_false.mpr h2⟩

theorem mem_missing_of {st : AnalysisResult} {b : String}
    (h1 : b ∈ refSet st) (h2 : b ∉ existSet st) : b ∈ missing_basenames st :=
  mem_missing_iff.mpr ⟨h1, h2⟩

theorem filterMap_keys_sublist {β γ : Type _} (f : String × β → Option (String × γ))
    (hf : ∀ x y, f x = some y → y.1 = x.1) :
    ∀ l : List (String × β),
      ((l.filterMap f).map Prod.fst).Sublist (l.map Prod.fst)
  | [] => List.Sublist.refl _
  | x :: t => by
    cases hfx : f x with
    | none =>
      rw [List.filterMap_cons, hfx]
      exact (filterMap_keys_sublist f hf t).cons x.1
    | some y =>
      rw [List.filterMap_cons, hfx, List.map_cons, List.map_cons, hf x y hfx]
      exact (filterMap_keys_sublist f hf t).cons₂ x.1

theorem lookupMap_names {m : List (String × List Path)} {n : String}
    (h : MapInv m) : ∀ p ∈ lookupMap m n, Path.name p = n := by
  intro p hp
  unfold lookupMap at hp
  cases hfind : m.find? (fun kv => kv.1 = n) with
  | none => rw [hfind] at hp; simp at hp
  | some kv =>
    rw [hfind] at hp
    have hmem := List.mem_of_find?_eq_some hfind
    have hpred := List.find?_some hfind
    have hkey : kv.1 = n := by simpa using hpred
    exact hkey ▸ h kv hmem p hp

/-! ## Claim theorems -/

/-- C5: for every catalog and reference-edge table produced by a scan, the
Orphans set (existing minus referenced basenames) and the Missing set
(referenced minus existing basenames) computed by the analyzer are
disjoint. -/
theorem C5_orphans_missing_disjoint (fs : FSTree) (root : Path)
    (excl : List String) :
    (orphan_basenames (analyze_project_files fs root excl)) ∩
      (missing_basenames (analyze_project_files fs root excl)) = [] := by
  rw [List.inter_eq_nil_iff_disjoint]
  intro b hb hbm
  exact (mem_missing_iff.mp hbm).2 (mem_orphan_iff.mp hb).1

/-- C10: orphan classification operates on basenames only — once any
reference to basename `b` is extracted, `b` is not an orphan and no
cataloged file named `b` (in any directory) appears in the orphan detail
output. -/
theorem C10_referenced_never_orphan (fs : FSTree) (root : Path)
    (excl : List String) (b : String)
    (h : b ∈ refSet (analyze_project_files fs root excl)) :
    b ∉ orphan_basenames (analyze_project_files fs root excl) ∧
    ∀ p ∈ orphan_paths (analyze_project_files fs root excl), Path.name p ≠ b := by
  constructor
  · intro hb
    exact (mem_orphan_iff.mp hb).2 h
  · intro p hp hname
    unfold orphan_paths at hp
    obtain ⟨n, hn, hpl⟩ := List.mem_flatMap.mp hp
    have hpn : Path.name p = n :=
      lookupMap_names (analyze_mapInv fs root excl) p hpl
    have hb : b ∈ orphan_basenames (analyze_project_files fs root excl) :=
      (hpn.symm.trans hname) ▸ hn
    exact (mem_orphan_iff.mp hb).2 h

/-- C10 witness: in `treeF`, `a.c` references `b.h`; neither copy of `b.h`
(root or `sub`) shows up among the orphans. -/
theorem C10_witness :
    "b.h" ∈ refSet (analyze_project_files treeF ["proj"] DEFAULT_FOLDERS_TO_EXCLUDE) ∧
    ("b.h" ∉ orphan_basenames (analyze_project_files treeF ["proj"] DEFAULT_FOLDERS_TO_EXCLUDE) ∧
     ∀ p ∈ orphan_paths (analyze_project_files treeF ["proj"] DEFAULT_FOLDERS_TO_EXCLUDE),
       Path.name p ≠ "b.h") :=
  ⟨by decide,
   C10_referenced_never_orphan treeF ["proj"] DEFAULT_FOLDERS_TO_EXCLUDE "b.h" (by decide)⟩

/-- C9: the excluded-name check tests every component of a directory's
absolute path, including components above the project root; if the
resolved root path itself contains an excluded name, file processing is
skipped everywhere, so catalog and reference table come out empty. -/
theorem C9_excluded_root_empty (fs : FSTree) (root : Path) (excl : List String)
    (h : ∃ x ∈ excl, x ∈ root) :
    (analyze_project_files fs root excl).list_exist = [] ∧
    (analyze_project_files fs root excl).list_referenced = [] ∧
    (analyze_project_files fs root excl).found_files_map = [] := by
  obtain ⟨x, hx, hxr⟩ := h
  refine foldl_preserve_mem
    (fun s => s.list_exist = [] ∧ s.list_referenced = [] ∧ s.found_files_map = [])
    (stepEntry root excl) (walkEntries fs root excl) ?_ emptyResult ⟨rfl, rfl, rfl⟩
  intro s e he hs
  obtain ⟨t, ht⟩ := walkEntries_prefix fs root excl e he
  have hskip : excl.any (fun y => e.dirpath.contains y) = true := by
    refine List.any_eq_true.mpr ⟨x, hx, ?_⟩
    exact contains_eq_mem.mpr (by rw [ht]; exact List.mem_append_left t hxr)
  obtain ⟨h1, h2, h3⟩ := stepEntry_skip_proj root excl s e hskip
  exact ⟨h1.trans hs.1, h2.trans hs.2.1, h3.trans hs.2.2⟩

/-- C9 witness: scanning `treeH` from the root `/build/proj` (which has
`build` as a path component) produces empty catalog and references even
though files of interest are present. -/
theorem C9_witness :
    (analyze_project_files treeH ["build", "proj"] DEFAULT_FOLDERS_TO_EXCLUDE).list_exist = [] ∧
    (analyze_project_files treeH ["build", "proj"] DEFAULT_FOLDERS_TO_EXCLUDE).list_referenced = [] ∧
    (analyze_project_files treeH ["build", "proj"] DEFAULT_FOLDERS_TO_EXCLUDE).found_files_map = [] :=
  C9_excluded_root_empty treeH ["build", "proj"] DEFAULT_FOLDERS_TO_EXCLUDE
    ⟨"build", by decide, by decide⟩

/-- C6: the ancestor chain is checked nearest-first and the first ancestor
holding a marker is returned before any downward search; in particular a
marker in the start directory wins over one in a grandparent. -/
theorem C6_nearest_ancestor_first (fs : FSTree) (markers : List String)
    (start : Path) :
    (∀ p, List.find? (fun q => hasMarker fs markers q) (upChain start) = some p →
        find_project_root fs start markers = some p) ∧
    (hasMarker fs markers start = true →
        find_project_root fs start markers = some start) := by
  have main : ∀ p,
      List.find? (fun q => hasMarker fs markers q) (upChain start) = some p →
      find_project_root fs start markers = some p := by
    intro p hp
    simp only [find_project_root]
    rw [hp]
  refine ⟨main, fun hm => ?_⟩
  obtain ⟨t, ht⟩ := upChain_head start
  refine main start ?_
  rw [ht]
  exact List.find?_cons_of_pos _ hm

/-- C6 witness: in `treeG` both the start directory `/g/p/s` and the
grandparent `/g` hold a `LICENSE` marker, and the start directory is
returned. -/
theorem C6_witness :
    hasMarker treeG DEFAULT_ROOT_MARKER_FILES ["g"] = true ∧
    find_project_root treeG ["g", "p", "s"] DEFAULT_ROOT_MARKER_FILES
      = some ["g", "p", "s"] :=
  ⟨by decide,
   (C6_nearest_ancestor_first treeG DEFAULT_ROOT_MARKER_FILES ["g", "p", "s"]).2 (by decide)⟩

/-- C7: the process exit code is 0 exactly when a project root is located
(and then the analysis result is produced, whatever its findings), and 1
exactly when the root cannot be located. -/
theorem C7_exit_codes (fs : FSTree) (start : Path) (markers excl : List String) :
    ((main_run fs start markers excl).1 = 0 ↔
        find_project_root fs start markers ≠ none) ∧
    ((main_run fs start markers excl).1 = 1 ↔
        find_project_root fs start markers = none) ∧
    (∀ root, find_project_root fs start markers = some root →
        (main_run fs start markers excl).2 = some (analyze_project_files fs root excl)) := by
  cases hf : find_project_root fs start markers with
  | none =>
    refine ⟨?_, ?_, ?_⟩
    · simp [main_run, hf]
    · simp [main_run, hf]
    · intro root hr
      exact absurd hr (by simp)
  | some r =>
    refine ⟨?_, ?_, ?_⟩
    · simp [main_run, hf]
    · simp [main_run, hf]
    · intro root hr
      cases hr
      simp [main_run, hf]

/-- C7 witness: on `treeA` the root is found and the exit code is 0 even
though both the orphan and the missing findings are non-empty. -/
theorem C7_witness :
    (main_run treeA ["proj"] DEFAULT_ROOT_MARKER_FILES DEFAULT_FOLDERS_TO_EXCLUDE).1 = 0 ∧
    orphan_basenames (analyze_project_files treeA ["proj"] DEFAULT_FOLDERS_TO_EXCLUDE) ≠ [] ∧
    missing_basenames (analyze_project_files treeA ["proj"] DEFAULT_FOLDERS_TO_EXCLUDE) ≠ [] :=
  ⟨(C7_exit_codes treeA ["proj"] DEFAULT_ROOT_MARKER_FILES DEFAULT_FOLDERS_TO_EXCLUDE).1.mpr
      (by decide),
   by decide, by decide⟩

/-- C8: the locator is deterministic — two runs on the same tree, marker
set and start directory return the same root. -/
theorem C8_deterministic (fs : FSTree) (markers : List String) (start : Path)
    (r1 r2 : Option Path)
    (h1 : r1 = find_project_root fs start markers)
    (h2 : r2 = find_project_root fs start markers) : r1 = r2 :=
  h1.trans h2.symm

/-- C8 witness: two concrete runs on `treeA` agree. -/
theorem C8_witness :
    (some (["proj"] : Path)) = (some (["proj"] : Path)) :=
  C8_deterministic treeA DEFAULT_ROOT_MARKER_FILES ["proj"] _ _ (by decide) (by decide)

/-- C1 counterexample: in `treeA`, `main.c` includes `foo.h` and no
`foo.h` exists anywhere, yet a Missing entry IS produced for `foo.h` —
`Path.resolve()` on Python >= 3.6 never raises for a nonexistent target,
so the reference is recorded rather than dropped. -/
theorem C1_counterexample :
    "foo.h" ∉ existSet (analyze_project_files treeA ["proj"] DEFAULT_FOLDERS_TO_EXCLUDE) ∧
    "foo.h" ∈ refSet (analyze_project_files treeA ["proj"] DEFAULT_FOLDERS_TO_EXCLUDE) ∧
    missing_basenames (analyze_project_files treeA ["proj"] DEFAULT_FOLDERS_TO_EXCLUDE)
      = ["foo.h"] :=
  ⟨by decide, by decide, by decide⟩

/-- C1 (amended): a quoted include in a processed `.c`/`.h` file is always
recorded under the resolved basename (resolution is lexical and cannot
fail), and when that basename is absent from the catalog a Missing entry
IS produced for it. -/
theorem C1_include_reference_recorded (fs : FSTree) (root : Path)
    (excl : List String) (e : WalkEntry) (he : e ∈ walkEntries fs root excl)
    (hskip : excl.any (fun x => e.dirpath.contains x) = false)
    (f : FileEnt) (hf : f ∈ e.files) (hsym : f.symlink = false)
    (hsuf : pySuffix f.name = ".c" ∨ pySuffix f.name = ".h")
    (line : String) (hline : line ∈ f.lines)
    (ref : String) (href : ref ∈ findIncludes line) :
    refName e.dirpath ref ∈ refSet (analyze_project_files fs root excl) ∧
    (refName e.dirpath ref ∉ existSet (analyze_project_files fs root excl) →
      refName e.dirpath ref ∈ missing_basenames (analyze_project_files fs root excl)) := by
  have hr : refName e.dirpath ref ∈ refsOfFile e.dirpath f := by
    unfold refsOfFile
    rw [if_pos hsuf]
    exact List.mem_map.mpr ⟨ref, List.mem_flatMap.mpr ⟨line, hline, href⟩, rfl⟩
  have hmem : refName e.dirpath ref ∈
      keysOf (analyze_project_files fs root excl).list_referenced :=
    analyze_lr_adds fs root excl e he hskip f hf hsym hr
  exact ⟨hmem, fun hnex => mem_missing_of hmem hnex⟩

/-- C1 witness: the amended statement instantiated on `treeA`. -/
theorem C1_witness :
    "foo.h" ∈ refSet (analyze_project_files treeA ["proj"] DEFAULT_FOLDERS_TO_EXCLUDE) ∧
    "foo.h" ∈ missing_basenames (analyze_project_files treeA ["proj"] DEFAULT_FOLDERS_TO_EXCLUDE) := by
  have h := C1_include_reference_recorded treeA ["proj"] DEFAULT_FOLDERS_TO_EXCLUDE
    ⟨["proj"], [], [⟨"LICENSE", [], false⟩, ⟨"main.c", ["#include \"foo.h\""], false⟩]⟩
    (by decide) (by decide)
    ⟨"main.c", ["#include \"foo.h\""], false⟩ (by decide) (by decide)
    (by decide)
    "#include \"foo.h\"" (by decide) "foo.h" (by decide)
  exact ⟨h.1, h.2 (by decide)⟩

/-- C2 counterexample: `treeB` has its only marker inside the excluded-
named directory `build`; the downward BFS of the locator — which never
consults the exclusion set — returns exactly that directory. -/
theorem C2_counterexample :
    "build" ∈ DEFAULT_FOLDERS_TO_EXCLUDE ∧
    "LICENSE" ∈ DEFAULT_ROOT_MARKER_FILES ∧
    isFile treeB ["home", "proj", "build", "LICENSE"] = true ∧
    find_project_root treeB ["home", "proj"] DEFAULT_ROOT_MARKER_FILES
      = some ["home", "proj", "build"] :=
  ⟨by decide, by decide, by decide, by decide⟩

/-- C2 (amended): RootLocator does not consult the exclusion set, so a
marker inside an excluded-named directory can be found and returned as
root (shown on `treeB`); the pruned directory's path is nevertheless
recorded in ExcludedRegions during every catalog pass. -/
theorem C2_pruned_recorded (fs : FSTree) (root : Path) (excl : List String)
    (e : WalkEntry) (he : e ∈ walkEntries fs root excl)
    (d : String) (hd : d ∈ e.dirnames) (hex : d ∈ excl) :
    (e.dirpath ++ [d]) ∈ (analyze_project_files fs root excl).no_go_areas ∧
    find_project_root treeB ["home", "proj"] DEFAULT_ROOT_MARKER_FILES
      = some ["home", "proj", "build"] :=
  ⟨analyze_no_go_adds fs root excl e he hd (contains_eq_mem.mpr hex), by decide⟩

/-- C2 witness: the amended statement instantiated on `treeB2`, whose
root `/home/proj` carries a marker: `build` is pruned and its path is
recorded in `no_go_areas`. -/
theorem C2_witness :
    (["home", "proj", "build"] : Path) ∈
      (analyze_project_files treeB2 ["home", "proj"] DEFAULT_FOLDERS_TO_EXCLUDE).no_go_areas ∧
    find_project_root treeB ["home", "proj"] DEFAULT_ROOT_MARKER_FILES
      = some ["home", "proj", "build"] :=
  C2_pruned_recorded treeB2 ["home", "proj"] DEFAULT_FOLDERS_TO_EXCLUDE
    ⟨["home", "proj"], ["build"], [⟨"x.c", [], false⟩, ⟨"LICENSE", [], false⟩]⟩
    (by decide) "build" (by decide) (by decide)

/-- C3 counterexample: for `from pkg.helpers import x` the analyzer records
the referenced basename `pkg.helpers.py` — the full dotted path with
`.py` appended — not the last segment `helpers.py`. -/
theorem C3_counterexample :
    refSet (analyze_project_files treeC ["proj"] DEFAULT_FOLDERS_TO_EXCLUDE)
      = ["pkg.helpers.py"] ∧
    "helpers.py" ∉ refSet (analyze_project_files treeC ["proj"] DEFAULT_FOLDERS_TO_EXCLUDE) ∧
    "helpers.py" ∉ missing_basenames (analyze_project_files treeC ["proj"] DEFAULT_FOLDERS_TO_EXCLUDE) ∧
    missing_basenames (analyze_project_files treeC ["proj"] DEFAULT_FOLDERS_TO_EXCLUDE)
      = ["pkg.helpers.py"] :=
  ⟨by decide, by decide, by decide, by decide⟩

/-- C3 (amended): every `from <dotted-path> import` match in a processed
`.py` file records as referenced basename the ENTIRE dotted path with
`.py` appended (which coincides with the last segment exactly for flat,
single-segment imports such as `from helpers import thing`); when that
basename is absent from the catalog, a Missing entry is produced. -/
theorem C3_pyimport_records_dotted_path (fs : FSTree) (root : Path)
    (excl : List String) (e : WalkEntry) (he : e ∈ walkEntries fs root excl)
    (hskip : excl.any (fun x => e.dirpath.contains x) = false)
    (f : FileEnt) (hf : f ∈ e.files) (hsym : f.symlink = false)
    (hsuf : pySuffix f.name = ".py")
    (hnc1 : strEndsWith (strToLower f.name) ".cmake" = false)
    (hnc2 : strEndsWith (strToLower f.name) "cmakelists.txt" = false)
    (line : String) (hline : line ∈ f.lines)
    (mod : String) (hmod : mod ∈ findPyFroms line) :
    (mod ++ ".py") ∈ refSet (analyze_project_files fs root excl) ∧
    ((mod ++ ".py") ∉ existSet (analyze_project_files fs root excl) →
      (mod ++ ".py") ∈ missing_basenames (analyze_project_files fs root excl)) := by
  have hr : (mod ++ ".py") ∈ refsOfFile e.dirpath f := by
    have h1 : ¬(pySuffix f.name = ".c" ∨ pySuffix f.name = ".h") := by
      rw [hsuf]; decide
    have h2 : ¬(strEndsWith (strToLower f.name) ".cmake" = true ∨
        strEndsWith (strToLower f.name) "cmakelists.txt" = true) := by
      rw [hnc1, hnc2]; decide
    unfold refsOfFile
    rw [if_neg h1, if_neg h2, if_pos hsuf]
    exact List.mem_map.mpr ⟨mod, List.mem_flatMap.mpr ⟨line, hline, hmod⟩, rfl⟩
  have hmem : (mod ++ ".py") ∈
      keysOf (analyze_project_files fs root excl).list_referenced :=
    analyze_lr_adds fs root excl e he hskip f hf hsym hr
  exact ⟨hmem, fun hnex => mem_missing_of hmem hnex⟩

/-- C3 witness: the amended statement instantiated on `treeD` (spec
Scenario D): `from helpers import thing` with no `helpers.py` in the tree
puts `helpers.py` into Missing. -/
theorem C3_witness :
    "helpers.py" ∈ refSet (analyze_project_files treeD ["proj"] DEFAULT_FOLDERS_TO_EXCLUDE) ∧
    "helpers.py" ∈ missing_basenames (analyze_project_files treeD ["proj"] DEFAULT_FOLDERS_TO_EXCLUDE) := by
  have h := C3_pyimport_records_dotted_path treeD ["proj"] DEFAULT_FOLDERS_TO_EXCLUDE
    ⟨["proj"], [], [⟨"LICENSE", [], false⟩, ⟨"m.py", ["from helpers import thing"], false⟩]⟩
    (by decide) (by decide)
    ⟨"m.py", ["from helpers import thing"], false⟩ (by decide) (by decide)
    (by decide) (by decide) (by decide)
    "from helpers import thing" (by decide) "helpers" (by decide)
  exact ⟨h.1, h.2 (by decide)⟩

/-- C4 counterexample: in `treeE` the duplicate `util.c` has traversal
order `zz` before `aa`, and the printed path list is `paths[0]` followed by
`sorted(paths)[1:]` — here the `zz` path twice — which is not the sorted
full path list and omits the `aa` path entirely. -/
theorem C4_counterexample :
    dup_entries (analyze_project_files treeE ["proj"] DEFAULT_FOLDERS_TO_EXCLUDE) ".c"
      = [("util.c", [["proj", "zz", "util.c"], ["proj", "zz", "util.c"]])] ∧
    lookupMap (analyze_project_files treeE ["proj"] DEFAULT_FOLDERS_TO_EXCLUDE).found_files_map "util.c"
      = [["proj", "zz", "util.c"], ["proj", "aa", "util.c"]] ∧
    sortPaths [["proj", "zz", "util.c"], ["proj", "aa", "util.c"]]
      = [["proj", "aa", "util.c"], ["proj", "zz", "util.c"]] ∧
    (["proj", "aa", "util.c"] : Path) ∉
      [(["proj", "zz", "util.c"] : Path), ["proj", "zz", "util.c"]] :=
  ⟨by decide, by decide, by decide, by decide⟩

/-- C4 (amended): each duplicated basename appears exactly once per
matching extension class (case-insensitive suffix match) — every basename
with more than one record and a matching class IS listed, listed entries
are pairwise distinct, and nothing else is listed; each entry's printed
path list is the traversal-order-first path followed by the sorted path
list minus that sorted list's first element — coinciding with the fully
sorted list only when traversal order already leads with the least path. -/
theorem C4_duplicates_listing (fs : FSTree) (root : Path) (excl : List String)
    (ext : String) :
    ((dup_entries (analyze_project_files fs root excl) ext).map Prod.fst).Nodup ∧
    (∀ n ps, (n, ps) ∈ (analyze_project_files fs root excl).found_files_map →
      strEndsWith (strToLower n) (strToLower ext) = true → 1 < ps.length →
      ∃ p0 rest, ps = p0 :: rest ∧
        (n, p0 :: (sortPaths ps).drop 1) ∈
          dup_entries (analyze_project_files fs root excl) ext) ∧
    ∀ nv ∈ dup_entries (analyze_project_files fs root excl) ext,
      ∃ ps, (nv.1, ps) ∈ (analyze_project_files fs root excl).found_files_map ∧
        1 < ps.length ∧
        strEndsWith (strToLower nv.1) (strToLower ext) = true ∧
        ∃ p0 rest, ps = p0 :: rest ∧ nv.2 = p0 :: (sortPaths ps).drop 1 := by
  refine ⟨?_, ?_, ?_⟩
  · have hkeys : (keysOf (analyze_project_files fs root excl).found_files_map).Nodup :=
      analyze_keys_nodup fs root excl
    have hperm := (sortByName_perm (analyze_project_files fs root excl).found_files_map).map Prod.fst
    have hsorted : ((sortByName (analyze_project_files fs root excl).found_files_map).map Prod.fst).Nodup :=
      hperm.nodup_iff.mpr hkeys
    refine List.Nodup.sublist ?_ hsorted
    refine filterMap_keys_sublist _ ?_ _
    intro x y hxy
    by_cases hcond : (strEndsWith (strToLower x.1) (strToLower ext) &&
        decide (x.2.length > 1)) = true
    · rw [if_pos hcond] at hxy
      cases hx2 : x.2 with
      | nil => rw [hx2] at hxy; exact absurd hxy (by simp)
      | cons p0 t =>
        rw [hx2] at hxy
        cases hxy
        rfl
    · rw [if_neg hcond] at hxy
      exact absurd hxy (by simp)
  · intro n ps hmem hends hlen
    cases ps with
    | nil => exact absurd hlen (by decide)
    | cons p0 rest =>
      refine ⟨p0, rest, rfl, ?_⟩
      have hcond : (strEndsWith (strToLower n) (strToLower ext) &&
          decide ((p0 :: rest).length > 1)) = true := by
        rw [Bool.and_eq_true]
        exact ⟨hends, decide_eq_true hlen⟩
      unfold dup_entries
      refine List.mem_filterMap.mpr
        ⟨(n, p0 :: rest), (sortByName_perm _).mem_iff.mpr hmem, ?_⟩
      show (if strEndsWith (strToLower n) (strToLower ext) &&
            decide ((p0 :: rest).length > 1) then
          some (n, p0 :: (sortPaths (p0 :: rest)).drop 1)
        else none) = some (n, p0 :: (sortPaths (p0 :: rest)).drop 1)
      rw [if_pos hcond]
  · intro nv hnv
    obtain ⟨kv, hkv, heq⟩ := List.mem_filterMap.mp hnv
    have hkvm : kv ∈ (analyze_project_files fs root excl).found_files_map :=
      (sortByName_perm _).mem_iff.mp hkv
    by_cases hcond : (strEndsWith (strToLower kv.1) (strToLower ext) &&
        decide (kv.2.length > 1)) = true
    · rw [if_pos hcond] at heq
      have hcond2 := hcond
      rw [Bool.and_eq_true] at hcond2
      obtain ⟨hends, hlen⟩ := hcond2
      cases hx2 : kv.2 with
      | nil =>
        rw [hx2] at hlen
        exact absurd (of_decide_eq_true hlen) (by simp)
      | cons p0 t =>
        rw [hx2] at heq
        cases heq
        exact ⟨kv.2, hkvm, of_decide_eq_true hlen, hends, p0, t, hx2, by rw [hx2]⟩
    · rw [if_neg hcond] at heq
      exact absurd heq (by simp)

/-- C4 witness: the amended statement instantiated on `treeE` — the
duplicated `util.c` qualifies under class `.c` and the completeness
direction places it (with its `paths[0] :: sorted(paths)[1:]` list) in the
Warnings data, where it indeed sits. -/
theorem C4_witness :
    (∃ p0 rest,
      ([(["proj", "zz", "util.c"] : Path), ["proj", "aa", "util.c"]] : List Path)
        = p0 :: rest ∧
      ("util.c", p0 ::
          (sortPaths [["proj", "zz", "util.c"], ["proj", "aa", "util.c"]]).drop 1) ∈
        dup_entries (analyze_project_files treeE ["proj"] DEFAULT_FOLDERS_TO_EXCLUDE) ".c") ∧
    (("util.c", [(["proj", "zz", "util.c"] : Path), ["proj", "zz", "util.c"]]) ∈
      dup_entries (analyze_project_files treeE ["proj"] DEFAULT_FOLDERS_TO_EXCLUDE) ".c") :=
  ⟨(C4_duplicates_listing treeE ["proj"] DEFAULT_FOLDERS_TO_EXCLUDE ".c").2.1
     "util.c" [["proj", "zz", "util.c"], ["proj", "aa", "util.c"]]
     (by decide) (by decide) (by decide),
   by decide⟩

end Projanitor

